import Mathlib

/-!
Verification development for the pubkey-collector repository.

The Go sources are shallowly embedded:

* `pkg/keydb/keydb.go` — the BadgerDB-backed store.  A BadgerDB instance is
  modelled as an association list from key strings to `Metadata` values
  (`json.Marshal`/`json.Unmarshal` of the `Metadata` struct is a total,
  injective round trip for this struct, so we store the record itself).
  `db.Update` runs its closure against a pending-writes map and commits it
  only when the closure returns no error; on error the transaction is
  discarded and the database is unchanged (badger `DB.Update` semantics).
  `txn.Set` fails exactly when the key is empty (badger's `ErrEmptyKey`
  check in `Txn.modify`), which is the only input-determined failure of the
  write loop.
* `pkg/collect/github.go` — the collection pipeline.  The network is a
  function from URL to an `HTTPResult`; the GitHub pagination API is a list
  of per-page results; events carry an optional actor login and an optional
  repository name, mirroring the nil checks in the Go code.  `time.Sleep`
  and `log.Printf` calls have no observable effect and are omitted.
-/

deriving instance DecidableEq for Except

/-- Model of `collect.UserInfo`: a GitHub user with their SSH public keys. -/
structure UserInfo where
  PublicKeys : List String
  Repo : String
  Username : String
  deriving DecidableEq, Repr

/-- Model of `keydb.Metadata`: provenance for one public key.  `time.Time` is an
opaque instant; we model it as a natural number. -/
structure Metadata where
  user : String
  repo : String
  timestamp : Nat
  deriving DecidableEq, Repr

/-- The BadgerDB key space: an association list from public-key strings to
metadata records, no duplicate keys when built from `emptyDB` by `Store`. -/
abbrev KeyDB := List (String × Metadata)

/-- A freshly opened database. -/
def emptyDB : KeyDB := []

/-- The keys currently present in the database, in insertion order. -/
def dbKeys (db : KeyDB) : List String := db.map (·.1)

/-- Upsert of a single key/value pair into an association list: replaces the
record under `k` if present, appends otherwise.  This is the effect on the
key space of one committed badger `Set`. -/
def setEntry (db : KeyDB) (k : String) (v : Metadata) : KeyDB :=
  if db.any (fun e => e.1 == k) then
    db.map (fun e => if e.1 == k then (k, v) else e)
  else
    db ++ [(k, v)]

/-- Errors surfaced by the write loop.  `emptyKey` is badger's
`ErrEmptyKey`, returned by `txn.Set` when the key has length zero. -/
inductive StoreErr where
  | emptyKey
  deriving DecidableEq, Repr

/-- Model of `txn.Set(key, metadataJSON)`: records the write in the transaction's
pending-writes map, failing on the empty key. -/
def txnSet (pending : KeyDB) (k : String) (v : Metadata) : Except StoreErr KeyDB :=
  if k = "" then .error .emptyKey else .ok (setEntry pending k v)

/-- The `for _, pubKey := range userInfo.PublicKeys` loop inside
`db.Update`: sets every key to the same serialized metadata, stopping at the
first error. -/
def storeKeys (keys : List String) (v : Metadata) (pending : KeyDB) :
    Except StoreErr KeyDB :=
  match keys with
  | [] => .ok pending
  | k :: rest =>
    match txnSet pending k v with
    | .error e => .error e
    | .ok pending' => storeKeys rest v pending'

/-- Committing a badger transaction: apply the pending writes to the
database in order. -/
def commitTxn (db : KeyDB) (pending : KeyDB) : KeyDB :=
  pending.foldl (fun d e => setEntry d e.1 e.2) db

/-- Model of `KeyDB.Store`: builds one metadata record and writes every public key of
`userInfo` to it inside a single `db.Update` transaction.  The first
component is the returned error (`none` on success); the second is the
database afterwards — unchanged when the update closure failed, because
badger discards the transaction instead of committing it. -/
def Store (db : KeyDB) (userInfo : UserInfo) (user : String) (timestamp : Nat) :
    Option StoreErr × KeyDB :=
  let metadata : Metadata := ⟨user, userInfo.Repo, timestamp⟩
  match storeKeys userInfo.PublicKeys metadata [] with
  | .error e => (some e, db)
  | .ok pending => (none, commitTxn db pending)

/-- Model of `KeyDB.Lookup`: point read; badger's `ErrKeyNotFound` becomes `none`. -/
def Lookup (db : KeyDB) (pubKey : String) : Option Metadata :=
  (db.find? (fun e => e.1 == pubKey)).map (·.2)

/-- Model of `KeyDB.Count`: iterates over all keys and counts them. -/
def Count (db : KeyDB) : Nat := db.length

/-- A sequence of `Store` calls, each naming the user and timestamp it
passes (the drivers pass `userInfo.Username` and a current time); errors are
logged and the walk proceeds, as in `cmd/pubkey-db-load`. -/
def storeAll (db : KeyDB) (l : List (UserInfo × String × Nat)) : KeyDB :=
  l.foldl (fun d x => (Store d x.1 x.2.1 x.2.2).2) db

/-! ## The collect package (`pkg/collect/github.go`) -/

/-- Outcome of one `http.Get`: either a transport-level failure (non-nil
`err`, which also covers a failing `io.ReadAll`) or a response with a status
code and a fully read body. -/
inductive HTTPResult where
  | transportError
  | response (status : Nat) (body : String)

/-- The network, as a function from URL to result. -/
abbrev HTTP := String → HTTPResult

/-- Go's `unicode.IsSpace` restricted to the code points that matter here
(the Latin-1 range: space, tab, newline, vertical tab, form feed, carriage
return, next line, no-break space). -/
def isGoSpace (c : Char) : Bool :=
  c = ' ' || c = '\t' || c = '\n' || c = Char.ofNat 11 || c = Char.ofNat 12 ||
    c = '\r' || c = Char.ofNat 0x85 || c = Char.ofNat 0xA0

/-- Go `strings.TrimSpace`: drops whitespace from both ends. -/
def goTrimSpace (s : String) : String :=
  String.mk (((s.data.dropWhile isGoSpace).reverse.dropWhile isGoSpace).reverse)

/-- Go `strings.Split(s, "\n")` (non-empty separator, here a single
character): cut at every occurrence, keeping empty fields. -/
def splitOnChar (c : Char) : List Char → List (List Char)
  | [] => [[]]
  | a :: rest =>
    match splitOnChar c rest with
    | [] => [[]]
    | grp :: grps => if a = c then [] :: grp :: grps else (a :: grp) :: grps

/-- Go `strings.Split(s, "\n")` on strings. -/
def splitNL (s : String) : List String := (splitOnChar '\n' s.data).map String.mk

/-- Go `strings.HasSuffix`. -/
def goHasSuffix (s post : String) : Bool := List.isSuffixOf post.data s.data

/-- Trimming of trailing whitespace only; this follows the spec's words
("after trimming trailing whitespace"), for comparison with the code's
`goTrimSpace`. -/
def trimTrailingSpace (s : String) : String :=
  String.mk ((s.data.reverse.dropWhile isGoSpace).reverse)

/-- Errors of `fetchPublicKeys`. -/
inductive FetchErr where
  | transport
  | status (code : Nat)
  deriving DecidableEq, Repr

/-- The URL `https://github.com/%s.keys` built by `fetchPublicKeys`. -/
def keysURL (username : String) : String :=
  "https://github.com/" ++ username ++ ".keys"

/-- Model of `fetchPublicKeys`: one retrieval of the per-user key listing.  Errors on
transport failure or a non-200 status; an empty body yields the nil slice;
otherwise the body is `strings.Split(strings.TrimSpace(body), "\n")`. -/
def fetchPublicKeys (http : HTTP) (username : String) :
    Except FetchErr (List String) :=
  match http (keysURL username) with
  | .transportError => .error .transport
  | .response status body =>
    if status ≠ 200 then .error (.status status)
    else if body = "" then .ok []
    else .ok (splitNL (goTrimSpace body))

/-- Error of `processUser`: `fmt.Errorf("empty username")`. -/
inductive ProcErr where
  | emptyUsername
  deriving DecidableEq, Repr

/-- The `publicKeys` value of `processUser`: the fetched keys, with any
fetch failure downgraded to the empty list. -/
def fetchedKeys (http : HTTP) (username : String) : List String :=
  match fetchPublicKeys http username with
  | .error _ => []
  | .ok ks => ks

/-- Model of `processUser`: rejects the empty username, otherwise always returns a
`UserInfo` carrying the (failure-downgraded) fetched keys. -/
def processUser (http : HTTP) (username repo : String) : Except ProcErr UserInfo :=
  if username = "" then .error .emptyUsername
  else .ok ⟨fetchedKeys http username, repo, username⟩

/-- One entry of a membership page: the member's login
(`member.GetLogin()`, already the empty string when the field is absent). -/
structure Member where
  login : String
  deriving DecidableEq, Repr

/-- Enumeration failure reported by the upstream listing call. -/
inductive SourceErr where
  | listFailed
  | rateLimited
  deriving DecidableEq, Repr

/-- The inner `for _, member := range members` loop of `OrgMembers`: skips
empty logins, appends the `processUser` result when it succeeds (it always
does for a non-empty login). -/
def processMembers (http : HTTP) (org : String) : List Member → List UserInfo
  | [] => []
  | m :: rest =>
    if m.login = "" then processMembers http org rest
    else
      match processUser http m.login org with
      | .ok u => u :: processMembers http org rest
      | .error _ => processMembers http org rest

/-- Model of `OrgMembers`: walks the paginated membership listing.  The upstream is a
finite list of per-page results (`resp.NextPage == 0` exactly on the last
element); a failing `ListMembers` call aborts the walk with the error. -/
def OrgMembers (http : HTTP) (org : String) :
    List (Except SourceErr (List Member)) → Except SourceErr (List UserInfo)
  | [] => .ok []
  | .error e :: _ => .error e
  | .ok members :: rest =>
    match OrgMembers http org rest with
    | .error e => .error e
    | .ok more => .ok (processMembers http org members ++ more)

/-- One event of the public activity stream: the actor's login when an actor
is attached (`event.GetActor()` nil check; the login itself may be empty)
and the repository name when a repo is attached. -/
structure Event where
  actor : Option String
  repo : Option String
  deriving DecidableEq, Repr

/-- The bot heuristic of `RecentEvents`:
`strings.HasSuffix(login, "bot") || strings.HasSuffix(login, "bot]")`. -/
def isLikelyBot (login : String) : Bool :=
  goHasSuffix login "bot" || goHasSuffix login "bot]"

/-- Trace of what the `RecentEvents` loop did with one event. -/
inductive EventStep where
  | skippedNoActor
  | skippedDedup (login : String)
  | skippedBot (login : String)
  | processed (login : String) (repo : String)
  deriving DecidableEq, Repr

/-- Prefix one trace step onto a loop result. -/
def prependStep (s : EventStep) (r : List EventStep × List UserInfo) :
    List EventStep × List UserInfo :=
  (s :: r.1, r.2)

/-- Prefix one trace step and one collected user onto a loop result. -/
def prependBoth (s : EventStep) (u : UserInfo)
    (r : List EventStep × List UserInfo) :
    List EventStep × List UserInfo :=
  (s :: r.1, u :: r.2)

/-- The `for _, event := range events` loop of `RecentEvents`, with `seen`
threaded through.  Mirrors the source order: nil-actor skip, then the
`login == "" || seen[login]` dedup check, then the bot-suffix skip (which
does NOT record the login as seen), then `processUser` followed by
`seen[login] = true`.  Returns the trace of steps and the collected users. -/
def recentEventsLoop (http : HTTP) :
    List Event → List String → List EventStep × List UserInfo
  | [], _ => ([], [])
  | e :: rest, seen =>
    match e.actor with
    | none => prependStep .skippedNoActor (recentEventsLoop http rest seen)
    | some login =>
      if (login == "") || seen.contains login then
        prependStep (.skippedDedup login) (recentEventsLoop http rest seen)
      else if isLikelyBot login then
        prependStep (.skippedBot login) (recentEventsLoop http rest seen)
      else
        let repoName := e.repo.getD ""
        match processUser http login repoName with
        | .ok u =>
          prependBoth (.processed login repoName) u
            (recentEventsLoop http rest (login :: seen))
        | .error _ =>
          prependStep (.processed login repoName)
            (recentEventsLoop http rest (login :: seen))

/-- Model of `RecentEvents` on a successfully listed page of events: runs the loop
with a fresh `seen` map.  (When `ListEvents` itself fails the function
returns the error before the loop; the claims concern the loop.) -/
def RecentEvents (http : HTTP) (events : List Event) :
    List EventStep × List UserInfo :=
  recentEventsLoop http events []

/-- Whether one trace step records the dedup check
(`login == "" || seen[login]`) evaluating to "process this login": true for
the steps that got past that check. -/
def dedupPassed (s : EventStep) (login : String) : Bool :=
  match s with
  | .skippedBot l => l == login
  | .processed l _ => l == login
  | _ => false

/-- How many times a given login got past the dedup check in a trace. -/
def dedupPassCount (tr : List EventStep) (login : String) : Nat :=
  (tr.filter (fun s => dedupPassed s login)).length

/-! ## Association-list lemmas for the store -/

theorem any_key_iff (db : KeyDB) (k : String) :
    db.any (fun e => e.1 == k) = true ↔ k ∈ dbKeys db := by
  simp only [List.any_eq_true, beq_iff_eq, dbKeys, List.mem_map]

theorem setEntry_of_not_mem {db : KeyDB} {k : String} (v : Metadata)
    (h : k ∉ dbKeys db) : setEntry db k v = db ++ [(k, v)] := by
  have ha : db.any (fun e => e.1 == k) = false := by
    rw [← Bool.not_eq_true, any_key_iff]
    exact h
  simp [setEntry, ha]

theorem dbKeys_setEntry_of_mem {db : KeyDB} {k : String} (v : Metadata)
    (h : k ∈ dbKeys db) : dbKeys (setEntry db k v) = dbKeys db := by
  have ha : db.any (fun e => e.1 == k) = true := (any_key_iff db k).2 h
  simp only [setEntry, ha, if_true]
  simp only [dbKeys, List.map_map]
  apply List.map_congr_left
  intro e _
  by_cases hek : e.1 = k <;> simp [hek]

theorem dbKeys_setEntry_of_not_mem {db : KeyDB} {k : String} (v : Metadata)
    (h : k ∉ dbKeys db) : dbKeys (setEntry db k v) = dbKeys db ++ [k] := by
  rw [setEntry_of_not_mem v h]
  simp [dbKeys]

theorem length_dbKeys (db : KeyDB) : (dbKeys db).length = db.length :=
  List.length_map db _

theorem mem_dbKeys_setEntry {db : KeyDB} {k0 : String} (k : String) (v : Metadata)
    (h : k0 ∈ dbKeys db) : k0 ∈ dbKeys (setEntry db k v) := by
  by_cases hm : k ∈ dbKeys db
  · rw [dbKeys_setEntry_of_mem v hm]; exact h
  · rw [dbKeys_setEntry_of_not_mem v hm]; exact List.mem_append_left _ h

theorem self_mem_dbKeys_setEntry (db : KeyDB) (k : String) (v : Metadata) :
    k ∈ dbKeys (setEntry db k v) := by
  by_cases hm : k ∈ dbKeys db
  · rw [dbKeys_setEntry_of_mem v hm]; exact hm
  · rw [dbKeys_setEntry_of_not_mem v hm]; simp

theorem dbKeys_setEntry_sub {db : KeyDB} {k0 k : String} {v : Metadata}
    (h : k0 ∈ dbKeys (setEntry db k v)) : k0 ∈ dbKeys db ∨ k0 = k := by
  by_cases hm : k ∈ dbKeys db
  · rw [dbKeys_setEntry_of_mem v hm] at h; exact Or.inl h
  · rw [dbKeys_setEntry_of_not_mem v hm] at h
    rcases List.mem_append.1 h with h1 | h2
    · exact Or.inl h1
    · exact Or.inr (List.mem_singleton.1 h2)

theorem mem_setEntry {db : KeyDB} {k : String} {v : Metadata} {e : String × Metadata}
    (h : e ∈ setEntry db k v) : e ∈ db ∨ e = (k, v) := by
  unfold setEntry at h
  split at h
  · obtain ⟨a, ha, rfl⟩ := List.mem_map.1 h
    by_cases hak : a.1 = k
    · simp [hak]
    · have hne : (if a.1 == k then (k, v) else a) = a := by simp [hak]
      rw [hne]
      exact Or.inl ha
  · rcases List.mem_append.1 h with h1 | h2
    · exact Or.inl h1
    · exact Or.inr (List.mem_singleton.1 h2)

theorem find?_key_eq_none {db : KeyDB} {k : String} (h : k ∉ dbKeys db) :
    db.find? (fun e => e.1 == k) = none := by
  rw [List.find?_eq_none]
  intro e he
  simp only [beq_iff_eq]
  intro hek
  exact h (List.mem_map.2 ⟨e, he, hek⟩)

theorem Lookup_setEntry_self (db : KeyDB) (k : String) (v : Metadata) :
    Lookup (setEntry db k v) k = some v := by
  by_cases h : k ∈ dbKeys db
  · have ha : db.any (fun e => e.1 == k) = true := (any_key_iff db k).2 h
    simp only [setEntry, ha, if_true, Lookup, List.find?_map]
    have hpred : ((fun e : String × Metadata => e.1 == k) ∘
        fun e => if e.1 == k then (k, v) else e) = fun e => e.1 == k := by
      funext e
      by_cases hek : e.1 = k <;> simp [hek]
    rw [hpred]
    cases hf : db.find? (fun e => e.1 == k) with
    | none =>
      rw [List.find?_eq_none] at hf
      obtain ⟨e, he, hek⟩ := List.mem_map.1 (show k ∈ db.map (·.1) from h)
      exact absurd (show (e.1 == k) = true by simp [hek]) (hf e he)
    | some e1 =>
      have he1 : e1.1 = k := by simpa using List.find?_some hf
      simp [he1]
  · rw [setEntry_of_not_mem v h]
    simp only [Lookup, List.find?_append, find?_key_eq_none h]
    simp

theorem Lookup_setEntry_other (db : KeyDB) (k : String) (v : Metadata)
    {k' : String} (h : k' ≠ k) : Lookup (setEntry db k v) k' = Lookup db k' := by
  by_cases hm : k ∈ dbKeys db
  · have ha : db.any (fun e => e.1 == k) = true := (any_key_iff db k).2 hm
    simp only [setEntry, ha, if_true, Lookup, List.find?_map]
    have hpred : ((fun e : String × Metadata => e.1 == k') ∘
        fun e => if e.1 == k then (k, v) else e) = fun e => e.1 == k' := by
      funext e
      by_cases hek : e.1 = k
      · simp [hek, Ne.symm h, h]
      · simp [hek]
    rw [hpred]
    cases hf : db.find? (fun e => e.1 == k') with
    | none => simp
    | some e1 =>
      have he1 : e1.1 = k' := by simpa using List.find?_some hf
      have : e1.1 ≠ k := he1 ▸ h
      simp [this]
  · rw [setEntry_of_not_mem v hm]
    simp only [Lookup, List.find?_append]
    have : ([(k, v)] : KeyDB).find? (fun e => e.1 == k') = none := by
      simp [Ne.symm h, h]
    rw [this]
    simp

theorem commitTxn_nil (db : KeyDB) : commitTxn db [] = db := rfl

theorem commitTxn_cons (db : KeyDB) (e : String × Metadata) (rest : KeyDB) :
    commitTxn db (e :: rest) = commitTxn (setEntry db e.1 e.2) rest := rfl

theorem mem_dbKeys_cons {e : String × Metadata} {rest : KeyDB} {k : String} :
    k ∈ dbKeys (e :: rest) ↔ k = e.1 ∨ k ∈ dbKeys rest := by
  simp [dbKeys, eq_comm]

theorem Lookup_commitTxn_not_mem {pending : KeyDB} {k : String} (db : KeyDB)
    (h : k ∉ dbKeys pending) : Lookup (commitTxn db pending) k = Lookup db k := by
  induction pending generalizing db with
  | nil => rfl
  | cons e rest ih =>
    rw [commitTxn_cons]
    have hk : ¬(k = e.1 ∨ k ∈ dbKeys rest) := fun hc => h (mem_dbKeys_cons.2 hc)
    push_neg at hk
    rw [ih _ hk.2]
    exact Lookup_setEntry_other db e.1 e.2 hk.1

theorem Lookup_commitTxn_mem {pending : KeyDB} {v : Metadata} {k : String} (db : KeyDB)
    (hall : ∀ e ∈ pending, e.2 = v) (hk : k ∈ dbKeys pending) :
    Lookup (commitTxn db pending) k = some v := by
  induction pending generalizing db with
  | nil => simp [dbKeys] at hk
  | cons e rest ih =>
    rw [commitTxn_cons]
    by_cases hr : k ∈ dbKeys rest
    · exact ih _ (fun x hx => hall x (List.mem_cons_of_mem _ hx)) hr
    · have hke : k = e.1 := by
        rcases mem_dbKeys_cons.1 hk with h1 | h2
        · exact h1
        · exact absurd h2 hr
      rw [Lookup_commitTxn_not_mem _ hr, hke]
      rw [Lookup_setEntry_self db e.1 e.2]
      rw [hall e (List.mem_cons_self e rest)]

theorem storeKeys_nil (v : Metadata) (p : KeyDB) : storeKeys [] v p = .ok p := rfl

theorem storeKeys_cons_ne {k : String} (rest : List String) (v : Metadata) (p : KeyDB)
    (hk : k ≠ "") : storeKeys (k :: rest) v p = storeKeys rest v (setEntry p k v) := by
  simp [storeKeys, txnSet, hk]

theorem storeKeys_cons_empty (rest : List String) (v : Metadata) (p : KeyDB) :
    storeKeys ("" :: rest) v p = .error .emptyKey := by
  simp [storeKeys, txnSet]

theorem storeKeys_error_of_empty {keys : List String} (v : Metadata) (p : KeyDB)
    (h : "" ∈ keys) : storeKeys keys v p = .error .emptyKey := by
  induction keys generalizing p with
  | nil => simp at h
  | cons k rest ih =>
    by_cases hk : k = ""
    · subst hk
      exact storeKeys_cons_empty rest v p
    · rw [storeKeys_cons_ne rest v p hk]
      have : "" ∈ rest := by
        rcases List.mem_cons.1 h with h1 | h2
        · exact absurd h1.symm hk
        · exact h2
      exact ih _ this

theorem storeKeys_ok_of_ne {keys : List String} (v : Metadata) (p : KeyDB)
    (h : ∀ k ∈ keys, k ≠ "") : ∃ p', storeKeys keys v p = .ok p' := by
  induction keys generalizing p with
  | nil => exact ⟨p, rfl⟩
  | cons k rest ih =>
    rw [storeKeys_cons_ne rest v p (h k (List.mem_cons_self k rest))]
    exact ih _ (fun k' hk' => h k' (List.mem_cons_of_mem _ hk'))

theorem storeKeys_vals {keys : List String} {v : Metadata} {p p' : KeyDB}
    (h : storeKeys keys v p = .ok p') (hp : ∀ e ∈ p, e.2 = v) :
    ∀ e ∈ p', e.2 = v := by
  induction keys generalizing p with
  | nil =>
    rw [storeKeys_nil] at h
    cases h
    exact hp
  | cons k rest ih =>
    by_cases hk : k = ""
    · subst hk
      rw [storeKeys_cons_empty] at h
      cases h
    · rw [storeKeys_cons_ne rest v p hk] at h
      refine ih h (fun e he => ?_)
      rcases mem_setEntry he with h1 | h2
      · exact hp e h1
      · rw [h2]

theorem storeKeys_keys_mono {keys : List String} {v : Metadata} {p p' : KeyDB}
    (h : storeKeys keys v p = .ok p') {k0 : String} (hk : k0 ∈ dbKeys p) :
    k0 ∈ dbKeys p' := by
  induction keys generalizing p with
  | nil =>
    rw [storeKeys_nil] at h
    cases h
    exact hk
  | cons k rest ih =>
    by_cases hke : k = ""
    · subst hke
      rw [storeKeys_cons_empty] at h
      cases h
    · rw [storeKeys_cons_ne rest v p hke] at h
      exact ih h (mem_dbKeys_setEntry k v hk)

theorem storeKeys_mem_keys {keys : List String} {v : Metadata} {p p' : KeyDB}
    (h : storeKeys keys v p = .ok p') : ∀ k ∈ keys, k ∈ dbKeys p' := by
  induction keys generalizing p with
  | nil => simp
  | cons k rest ih =>
    by_cases hke : k = ""
    · subst hke
      rw [storeKeys_cons_empty] at h
      cases h
    · rw [storeKeys_cons_ne rest v p hke] at h
      intro k0 hk0
      rcases List.mem_cons.1 hk0 with h1 | h2
      · subst h1
        exact storeKeys_keys_mono h (self_mem_dbKeys_setEntry p k0 v)
      · exact ih h k0 h2

theorem storeKeys_keys_sub {keys : List String} {v : Metadata} {p p' : KeyDB}
    (h : storeKeys keys v p = .ok p') :
    ∀ k0 ∈ dbKeys p', k0 ∈ keys ∨ k0 ∈ dbKeys p := by
  induction keys generalizing p with
  | nil =>
    rw [storeKeys_nil] at h
    cases h
    exact fun k0 hk0 => Or.inr hk0
  | cons k rest ih =>
    by_cases hke : k = ""
    · subst hke
      rw [storeKeys_cons_empty] at h
      cases h
    · rw [storeKeys_cons_ne rest v p hke] at h
      intro k0 hk0
      rcases ih h k0 hk0 with h1 | h2
      · exact Or.inl (List.mem_cons_of_mem _ h1)
      · rcases dbKeys_setEntry_sub h2 with h3 | h4
        · exact Or.inr h3
        · exact Or.inl (h4 ▸ List.mem_cons_self k rest)

theorem dbKeys_append (db1 db2 : KeyDB) :
    dbKeys (db1 ++ db2) = dbKeys db1 ++ dbKeys db2 :=
  List.map_append _ db1 db2

theorem dbKeys_map_pair (keys : List String) (v : Metadata) :
    dbKeys (keys.map (fun k => (k, v))) = keys := by
  simp only [dbKeys, List.map_map]
  exact List.map_id keys

theorem storeKeys_fresh {keys : List String} {v : Metadata} {p : KeyDB}
    (hne : ∀ k ∈ keys, k ≠ "") (hnd : keys.Nodup)
    (hfresh : ∀ k ∈ keys, k ∉ dbKeys p) :
    storeKeys keys v p = .ok (p ++ keys.map (fun k => (k, v))) := by
  induction keys generalizing p with
  | nil => simp [storeKeys_nil]
  | cons k rest ih =>
    rw [storeKeys_cons_ne rest v p (hne k (List.mem_cons_self k rest))]
    rw [setEntry_of_not_mem v (hfresh k (List.mem_cons_self k rest))]
    have hnd' := List.nodup_cons.1 hnd
    rw [ih (fun k' hk' => hne k' (List.mem_cons_of_mem _ hk')) hnd'.2 ?_]
    · simp
    · intro k' hk'
      rw [dbKeys_append]
      intro hc
      rcases List.mem_append.1 hc with h1 | h2
      · exact hfresh k' (List.mem_cons_of_mem _ hk') h1
      · have : k' = k := by simpa [dbKeys] using h2
        exact hnd'.1 (this ▸ hk')

theorem commitTxn_fresh {pending : KeyDB} (db : KeyDB)
    (hfresh : ∀ k ∈ dbKeys pending, k ∉ dbKeys db)
    (hnd : (dbKeys pending).Nodup) : commitTxn db pending = db ++ pending := by
  induction pending generalizing db with
  | nil => simp [commitTxn_nil]
  | cons e rest ih =>
    rw [commitTxn_cons]
    have he : e.1 ∉ dbKeys db :=
      hfresh e.1 (mem_dbKeys_cons.2 (Or.inl rfl))
    rw [setEntry_of_not_mem e.2 he]
    have hnd' : (dbKeys rest).Nodup ∧ e.1 ∉ dbKeys rest := by
      have := List.nodup_cons.1 (show (e.1 :: dbKeys rest).Nodup from hnd)
      exact ⟨this.2, this.1⟩
    rw [ih _ ?_ hnd'.1]
    · simp
    · intro k hk
      rw [dbKeys_append]
      intro hc
      rcases List.mem_append.1 hc with h1 | h2
      · exact hfresh k (mem_dbKeys_cons.2 (Or.inr hk)) h1
      · have : k = e.1 := by simpa [dbKeys] using h2
        exact hnd'.2 (this ▸ hk)

theorem Store_fresh (db : KeyDB) (u : UserInfo) (user : String) (t : Nat)
    (hne : ∀ k ∈ u.PublicKeys, k ≠ "") (hnd : u.PublicKeys.Nodup)
    (hfresh : ∀ k ∈ u.PublicKeys, k ∉ dbKeys db) :
    Store db u user t =
      (none, db ++ u.PublicKeys.map (fun k => (k, ⟨user, u.Repo, t⟩))) := by
  have hsk : storeKeys u.PublicKeys ⟨user, u.Repo, t⟩ [] =
      .ok ([] ++ u.PublicKeys.map (fun k => (k, ⟨user, u.Repo, t⟩))) :=
    storeKeys_fresh hne hnd (fun k _ hc => by simp [dbKeys] at hc)
  rw [List.nil_append] at hsk
  simp only [Store, hsk]
  rw [commitTxn_fresh db ?_ ?_]
  · rw [dbKeys_map_pair]
    exact hfresh
  · rw [dbKeys_map_pair]
    exact hnd

theorem dbKeys_commitTxn_existing {pending : KeyDB} (db : KeyDB)
    (h : ∀ k ∈ dbKeys pending, k ∈ dbKeys db) :
    dbKeys (commitTxn db pending) = dbKeys db := by
  induction pending generalizing db with
  | nil => simp [commitTxn_nil]
  | cons e rest ih =>
    rw [commitTxn_cons]
    have he : e.1 ∈ dbKeys db := h e.1 (mem_dbKeys_cons.2 (Or.inl rfl))
    have hset := dbKeys_setEntry_of_mem e.2 he
    rw [ih _ ?_, hset]
    intro k hk
    rw [hset]
    exact h k (mem_dbKeys_cons.2 (Or.inr hk))

theorem dbKeys_commitTxn_sub {pending : KeyDB} (db : KeyDB) :
    ∀ k ∈ dbKeys (commitTxn db pending), k ∈ dbKeys db ∨ k ∈ dbKeys pending := by
  induction pending generalizing db with
  | nil =>
    rw [commitTxn_nil]
    exact fun k hk => Or.inl hk
  | cons e rest ih =>
    rw [commitTxn_cons]
    intro k hk
    rcases ih _ k hk with h1 | h2
    · rcases dbKeys_setEntry_sub h1 with h3 | h4
      · exact Or.inl h3
      · exact Or.inr (mem_dbKeys_cons.2 (Or.inl h4))
    · exact Or.inr (mem_dbKeys_cons.2 (Or.inr h2))

theorem Store_error_snd {db : KeyDB} {u : UserInfo} {user : String} {t : Nat}
    {e : StoreErr} (h : (Store db u user t).1 = some e) :
    (Store db u user t).2 = db := by
  unfold Store at *
  cases hsk : storeKeys u.PublicKeys ⟨user, u.Repo, t⟩ [] with
  | error e' => simp [hsk]
  | ok p => simp [hsk] at h

theorem Store_empty_mem (db : KeyDB) (u : UserInfo) (user : String) (t : Nat)
    (h : "" ∈ u.PublicKeys) :
    Store db u user t = (some .emptyKey, db) := by
  simp [Store, storeKeys_error_of_empty (⟨user, u.Repo, t⟩ : Metadata) ([] : KeyDB) h]

theorem Store_ok_lookup {db : KeyDB} {u : UserInfo} {user : String} {t : Nat}
    (hok : (Store db u user t).1 = none) {k : String} (hk : k ∈ u.PublicKeys) :
    Lookup (Store db u user t).2 k = some ⟨user, u.Repo, t⟩ := by
  unfold Store at *
  cases hsk : storeKeys u.PublicKeys ⟨user, u.Repo, t⟩ [] with
  | error e => simp [hsk] at hok
  | ok p =>
    simp only [hsk]
    apply Lookup_commitTxn_mem db
    · exact storeKeys_vals hsk (by simp)
    · exact storeKeys_mem_keys hsk k hk

theorem Store_keys_existing {db : KeyDB} {u : UserInfo} {user : String} {t : Nat}
    (hne : ∀ k ∈ u.PublicKeys, k ≠ "")
    (hsub : ∀ k ∈ u.PublicKeys, k ∈ dbKeys db) :
    dbKeys (Store db u user t).2 = dbKeys db := by
  obtain ⟨p', hp'⟩ := storeKeys_ok_of_ne (⟨user, u.Repo, t⟩ : Metadata) [] hne
  unfold Store
  simp only [hp']
  apply dbKeys_commitTxn_existing
  intro k hk
  rcases storeKeys_keys_sub hp' k hk with h1 | h2
  · exact hsub k h1
  · simp [dbKeys] at h2

theorem Store_no_empty_key {db : KeyDB} {u : UserInfo} {user : String} {t : Nat}
    (h : ∀ k ∈ dbKeys db, k ≠ "") :
    ∀ k ∈ dbKeys (Store db u user t).2, k ≠ "" := by
  cases hsk : storeKeys u.PublicKeys ⟨user, u.Repo, t⟩ [] with
  | error e =>
    have h2 : (Store db u user t).2 = db := by simp [Store, hsk]
    rw [h2]
    exact h
  | ok p =>
    have h2 : (Store db u user t).2 = commitTxn db p := by simp [Store, hsk]
    rw [h2]
    intro k hk
    rcases dbKeys_commitTxn_sub db k hk with h1 | h2
    · exact h k h1
    · intro hke
      subst hke
      rcases storeKeys_keys_sub hsk "" h2 with h3 | h4
      · rw [storeKeys_error_of_empty _ _ h3] at hsk
        cases hsk
      · simp [dbKeys] at h4

/-- The entries that a list of `Store` calls contributes when every key is
fresh: each call appends its keys, all mapped to that call's metadata. -/
def entriesOf (l : List (UserInfo × String × Nat)) : KeyDB :=
  (l.map (fun x =>
    x.1.PublicKeys.map (fun k => (k, (⟨x.2.1, x.1.Repo, x.2.2⟩ : Metadata))))).flatten

theorem storeAll_nil (db : KeyDB) : storeAll db [] = db := rfl

theorem storeAll_cons (db : KeyDB) (x : UserInfo × String × Nat)
    (rest : List (UserInfo × String × Nat)) :
    storeAll db (x :: rest) = storeAll (Store db x.1 x.2.1 x.2.2).2 rest := rfl

theorem entriesOf_cons (x : UserInfo × String × Nat)
    (rest : List (UserInfo × String × Nat)) :
    entriesOf (x :: rest) =
      x.1.PublicKeys.map (fun k => (k, (⟨x.2.1, x.1.Repo, x.2.2⟩ : Metadata))) ++
        entriesOf rest := by
  simp [entriesOf]

theorem storeAll_fresh {l : List (UserInfo × String × Nat)} (db : KeyDB)
    (hne : ∀ x ∈ l, ∀ k ∈ x.1.PublicKeys, k ≠ "")
    (hnd : ∀ x ∈ l, x.1.PublicKeys.Nodup)
    (hdisj : l.Pairwise (fun a b => ∀ k ∈ a.1.PublicKeys, k ∉ b.1.PublicKeys))
    (hfresh : ∀ x ∈ l, ∀ k ∈ x.1.PublicKeys, k ∉ dbKeys db) :
    storeAll db l = db ++ entriesOf l := by
  induction l generalizing db with
  | nil => simp [storeAll_nil, entriesOf]
  | cons x rest ih =>
    have hx := List.mem_cons_self x rest
    have hstep : (Store db x.1 x.2.1 x.2.2).2 =
        db ++ x.1.PublicKeys.map (fun k => (k, (⟨x.2.1, x.1.Repo, x.2.2⟩ : Metadata))) := by
      rw [Store_fresh db x.1 x.2.1 x.2.2 (hne x hx) (hnd x hx) (hfresh x hx)]
    have hpc := List.pairwise_cons.1 hdisj
    rw [storeAll_cons, hstep, ih _ ?_ ?_ hpc.2 ?_, entriesOf_cons, List.append_assoc]
    · exact fun y hy => hne y (List.mem_cons_of_mem _ hy)
    · exact fun y hy => hnd y (List.mem_cons_of_mem _ hy)
    · intro y hy k hk
      rw [dbKeys_append, dbKeys_map_pair]
      intro hc
      rcases List.mem_append.1 hc with h1 | h2
      · exact hfresh y (List.mem_cons_of_mem _ hy) k hk h1
      · exact hpc.1 y hy k h2 hk

theorem storeAll_existing {l : List (UserInfo × String × Nat)} (db : KeyDB)
    (hne : ∀ x ∈ l, ∀ k ∈ x.1.PublicKeys, k ≠ "")
    (hsub : ∀ x ∈ l, ∀ k ∈ x.1.PublicKeys, k ∈ dbKeys db) :
    dbKeys (storeAll db l) = dbKeys db := by
  induction l generalizing db with
  | nil => simp [storeAll_nil]
  | cons x rest ih =>
    have hx := List.mem_cons_self x rest
    have hkeys : dbKeys (Store db x.1 x.2.1 x.2.2).2 = dbKeys db :=
      Store_keys_existing (hne x hx) (hsub x hx)
    rw [storeAll_cons, ih _ ?_ ?_, hkeys]
    · exact fun y hy => hne y (List.mem_cons_of_mem _ hy)
    · intro y hy k hk
      rw [hkeys]
      exact hsub y (List.mem_cons_of_mem _ hy) k hk

theorem length_entriesOf (l : List (UserInfo × String × Nat)) :
    (entriesOf l).length = (l.map (fun x => x.1.PublicKeys.length)).sum := by
  induction l with
  | nil => simp [entriesOf]
  | cons x rest ih => simp [entriesOf_cons, ih]

theorem dbKeys_entriesOf (l : List (UserInfo × String × Nat)) :
    dbKeys (entriesOf l) = (l.map (fun x => x.1.PublicKeys)).flatten := by
  induction l with
  | nil => simp [entriesOf, dbKeys]
  | cons x rest ih =>
    rw [entriesOf_cons, dbKeys_append, dbKeys_map_pair, ih]
    simp

/-! ## Claims about the durable store -/

/-- C1: last-write-wins.  If `Store` writes key `k` (with metadata built
from `user1`/`u1.Repo`/`t1`) and a later `Store` writes the same key `k`
(metadata from `user2`/`u2.Repo`/`t2`), then `Lookup k` afterwards returns
exactly the second record — the later write fully replaces the prior one. -/
theorem store_last_write_wins (db : KeyDB) (u1 u2 : UserInfo)
    (user1 user2 : String) (t1 t2 : Nat) (k : String)
    (hk1 : k ∈ u1.PublicKeys) (hk2 : k ∈ u2.PublicKeys)
    (h1 : (Store db u1 user1 t1).1 = none)
    (h2 : (Store (Store db u1 user1 t1).2 u2 user2 t2).1 = none) :
    Lookup (Store (Store db u1 user1 t1).2 u2 user2 t2).2 k =
      some ⟨user2, u2.Repo, t2⟩ :=
  Store_ok_lookup h2 hk2

/-- Witness for C1 at a concrete input: key "k1" written for alice, then for
bob; the lookup returns bob's record. -/
theorem store_last_write_wins_witness :
    Lookup (Store (Store emptyDB ⟨["k1"], "r1", "alice"⟩ "alice" 1).2
        ⟨["k1"], "r2", "bob"⟩ "bob" 2).2 "k1" =
      some ⟨"bob", "r2", 2⟩ :=
  store_last_write_wins emptyDB ⟨["k1"], "r1", "alice"⟩ ⟨["k1"], "r2", "bob"⟩
    "alice" "bob" 1 2 "k1" (by decide) (by decide) (by decide) (by decide)

/-- C2 counterexample: storing the identity with keys `["a", ""]` fails on
the second key (badger's empty-key error) after the write of "a" succeeded
inside the transaction; the claim says "a" then remains written, but the
store still has no entry for "a" — the whole transaction was discarded. -/
theorem store_partial_failure_counterexample :
    (Store emptyDB ⟨["a", ""], "r", "alice"⟩ "alice" 0).1 = some .emptyKey ∧
      Lookup (Store emptyDB ⟨["a", ""], "r", "alice"⟩ "alice" 0).2 "a" = none := by
  decide

/-- C2 (amended): when the write of one key fails, `Store` surfaces the
error to its caller and no key of that call is written — the single
enclosing transaction is discarded, leaving the store exactly as before the
call (per-call atomicity rather than per-key independence). -/
theorem store_failure_atomic (db : KeyDB) (u : UserInfo) (user : String)
    (t : Nat) (h : "" ∈ u.PublicKeys) :
    Store db u user t = (some .emptyKey, db) :=
  Store_empty_mem db u user t h

/-- Witness for the amended C2 at a concrete input. -/
theorem store_failure_atomic_witness :
    Store emptyDB ⟨["a", ""], "r", "alice"⟩ "alice" 0 =
      (some .emptyKey, emptyDB) :=
  store_failure_atomic emptyDB ⟨["a", ""], "r", "alice"⟩ "alice" 0 (by decide)

/-- C3: the store never contains an empty-string public key — `Store`
preserves the absence of the empty key (a failing transaction changes
nothing; a committing one only writes keys that passed `txn.Set`'s empty-key
guard) — and storing an identity with an empty key sequence succeeds and
adds zero entries. -/
theorem store_no_empty_key_invariant (db : KeyDB) (u : UserInfo)
    (user : String) (t : Nat) (h : ∀ k ∈ dbKeys db, k ≠ "") :
    (∀ k ∈ dbKeys (Store db u user t).2, k ≠ "") ∧
      (u.PublicKeys = [] → Store db u user t = (none, db)) := by
  refine ⟨Store_no_empty_key h, fun hu => ?_⟩
  simp [Store, hu, storeKeys_nil, commitTxn_nil]

/-- Witness for C3 at a concrete input: an identity with zero keys adds zero
entries to the empty store. -/
theorem store_no_empty_key_invariant_witness :
    (∀ k ∈ dbKeys (Store emptyDB ⟨[], "r", "bob"⟩ "bob" 3).2, k ≠ "") ∧
      Store emptyDB ⟨[], "r", "bob"⟩ "bob" 3 = (none, emptyDB) := by
  have h := store_no_empty_key_invariant emptyDB ⟨[], "r", "bob"⟩ "bob" 3
    (by decide)
  exact ⟨h.1, h.2 rfl⟩

/-- C7 counterexample: one identity whose key set is {""} (size 1); after
storing it into the empty store, `Count` is 0, not 1 — the empty-string key
is rejected, so the claimed sum Σkᵢ fails when a key is the empty string. -/
theorem count_empty_key_counterexample :
    Count (storeAll emptyDB [(⟨[""], "r", "alice"⟩, "alice", 0)]) = 0 ∧
      (([(⟨[""], "r", "alice"⟩, "alice", 0)] :
          List (UserInfo × String × Nat)).map
        (fun x => x.1.PublicKeys.length)).sum = 1 := by
  decide

/-- C7 (amended): storing N identities with pairwise disjoint, duplicate-free
key sets none of whose keys is the empty string into an initially empty
store makes `Count` the sum of the set sizes, and re-storing the same
identities leaves `Count` unchanged. -/
theorem count_disjoint_stores (l : List (UserInfo × String × Nat))
    (hne : ∀ x ∈ l, ∀ k ∈ x.1.PublicKeys, k ≠ "")
    (hnd : ∀ x ∈ l, x.1.PublicKeys.Nodup)
    (hdisj : l.Pairwise (fun a b => ∀ k ∈ a.1.PublicKeys, k ∉ b.1.PublicKeys)) :
    Count (storeAll emptyDB l) = (l.map (fun x => x.1.PublicKeys.length)).sum ∧
      Count (storeAll (storeAll emptyDB l) l) =
        (l.map (fun x => x.1.PublicKeys.length)).sum := by
  have hfirst : storeAll emptyDB l = entriesOf l := by
    rw [storeAll_fresh emptyDB hne hnd hdisj
      (fun x hx k hk => by simp [dbKeys, emptyDB])]
    rfl
  constructor
  · rw [hfirst]
    exact length_entriesOf l
  · have hsub : ∀ x ∈ l, ∀ k ∈ x.1.PublicKeys, k ∈ dbKeys (storeAll emptyDB l) := by
      intro x hx k hk
      rw [hfirst, dbKeys_entriesOf]
      exact List.mem_flatten.2 ⟨x.1.PublicKeys, List.mem_map.2 ⟨x, hx, rfl⟩, hk⟩
    have h2 := storeAll_existing (storeAll emptyDB l) hne hsub
    have h3 : Count (storeAll (storeAll emptyDB l) l) =
        (dbKeys (storeAll (storeAll emptyDB l) l)).length :=
      (length_dbKeys _).symm
    rw [h3, h2, length_dbKeys, hfirst, length_entriesOf]

/-- Witness for the amended C7: two identities with disjoint key sets of
sizes 2 and 1; `Count` is 3 after the first pass and after re-storing. -/
theorem count_disjoint_stores_witness :
    Count (storeAll emptyDB
        [(⟨["k1", "k2"], "r1", "alice"⟩, "alice", 0),
         (⟨["k3"], "r2", "bob"⟩, "bob", 1)]) = 3 ∧
      Count (storeAll (storeAll emptyDB
          [(⟨["k1", "k2"], "r1", "alice"⟩, "alice", 0),
           (⟨["k3"], "r2", "bob"⟩, "bob", 1)])
        [(⟨["k1", "k2"], "r1", "alice"⟩, "alice", 0),
         (⟨["k3"], "r2", "bob"⟩, "bob", 1)]) = 3 :=
  count_disjoint_stores
    [(⟨["k1", "k2"], "r1", "alice"⟩, "alice", 0),
     (⟨["k3"], "r2", "bob"⟩, "bob", 1)]
    (by decide) (by decide) (by decide)

/-! ## Lemmas about the fetch step -/

theorem processUser_ne (http : HTTP) {username : String} (repo : String)
    (h : username ≠ "") :
    processUser http username repo =
      .ok ⟨fetchedKeys http username, repo, username⟩ := by
  simp [processUser, h]

theorem processUser_username {http : HTTP} {username repo : String}
    {u : UserInfo} (h : processUser http username repo = .ok u) :
    u.Username = username ∧ u.Repo = repo ∧ username ≠ "" := by
  by_cases hu : username = ""
  · rw [hu] at h
    simp [processUser] at h
  · rw [processUser_ne http repo hu] at h
    cases h
    exact ⟨rfl, rfl, hu⟩

theorem fetchPublicKeys_error_of_failure {http : HTTP} {username : String}
    (hfail : ∀ s b, http (keysURL username) = .response s b → s ≠ 200) :
    ∃ e, fetchPublicKeys http username = .error e := by
  unfold fetchPublicKeys
  cases hr : http (keysURL username) with
  | transportError => exact ⟨.transport, rfl⟩
  | response s b =>
    have hs := hfail s b hr
    exact ⟨.status s, by simp [hs]⟩

/-- C4: for every (non-empty) username reaching the key-fetch step, an
HTTP/transport failure or any non-success status makes the step yield an
empty key sequence inside a successful result — the failure is never
propagated to the pipeline caller.  (`processUser` only errors on the empty
username, which never issues a retrieval at all.) -/
theorem processUser_fetch_failure (http : HTTP) (username repo : String)
    (hu : username ≠ "")
    (hfail : ∀ s b, http (keysURL username) = .response s b → s ≠ 200) :
    processUser http username repo = .ok ⟨[], repo, username⟩ := by
  obtain ⟨e, he⟩ := fetchPublicKeys_error_of_failure hfail
  rw [processUser_ne http repo hu]
  simp [fetchedKeys, he]

/-- Witness for C4 at a concrete input: a transport failure for "alice"
yields the UserInfo with no keys and no error. -/
theorem processUser_fetch_failure_witness :
    processUser (fun _ => .transportError) "alice" "r" =
      .ok ⟨[], "r", "alice"⟩ :=
  processUser_fetch_failure (fun _ => .transportError) "alice" "r"
    (by decide) (fun s b h => nomatch h)

/-- C5 counterexample: on the body `" a\nb"` (leading space) the fetcher
returns `["a", "b"]` — `strings.TrimSpace` removed the LEADING space too —
while splitting after trimming only trailing whitespace, as the claim
states, gives `[" a", "b"]`. -/
theorem fetch_trailing_trim_counterexample :
    fetchPublicKeys (fun _ => .response 200 " a\nb") "alice" =
        .ok ["a", "b"] ∧
      splitNL (trimTrailingSpace " a\nb") = [" a", "b"] ∧
      (["a", "b"] : List String) ≠ [" a", "b"] := by
  decide

/-- C5 (amended): for every non-empty key-listing body returned with status
200, the fetcher returns the body split on newline boundaries after
trimming LEADING AND trailing whitespace, order preserved; the example body
yields exactly the two keys with no trailing empty element (witness). -/
theorem fetchPublicKeys_trim_split (http : HTTP) (username body : String)
    (hb : body ≠ "")
    (hr : http (keysURL username) = .response 200 body) :
    fetchPublicKeys http username = .ok (splitNL (goTrimSpace body)) := by
  simp [fetchPublicKeys, hr, hb]

/-- Witness for the amended C5: the scenario body from the spec. -/
theorem fetchPublicKeys_trim_split_witness :
    fetchPublicKeys
        (fun _ => .response 200 "ssh-ed25519 AAAA...\nssh-rsa BBBB...\n")
        "alice" =
      .ok ["ssh-ed25519 AAAA...", "ssh-rsa BBBB..."] := by
  rw [fetchPublicKeys_trim_split
    (fun _ => .response 200 "ssh-ed25519 AAAA...\nssh-rsa BBBB...\n")
    "alice" "ssh-ed25519 AAAA...\nssh-rsa BBBB...\n" (by decide) rfl]
  decide

/-! ## Lemmas about the RecentEvents dedup behaviour -/

theorem dedupPassCount_cons (s : EventStep) (tr : List EventStep)
    (login : String) :
    dedupPassCount (s :: tr) login =
      (if dedupPassed s login then 1 else 0) + dedupPassCount tr login := by
  by_cases h : dedupPassed s login = true <;>
    simp [dedupPassCount, List.filter_cons, h, Nat.add_comm]

theorem dedupPassCount_seen (http : HTTP) (events : List Event)
    {seen : List String} {login : String} (h : login ∈ seen) :
    dedupPassCount (recentEventsLoop http events seen).1 login = 0 := by
  induction events generalizing seen with
  | nil => rfl
  | cons e rest ih =>
    cases ha : e.actor with
    | none =>
      simp only [recentEventsLoop, ha, prependStep]
      rw [dedupPassCount_cons]
      simpa [dedupPassed] using ih h
    | some login' =>
      simp only [recentEventsLoop, ha]
      by_cases hc : ((login' == "") || seen.contains login') = true
      · simp only [hc, if_true, prependStep]
        rw [dedupPassCount_cons]
        simpa [dedupPassed] using ih h
      · have hnl : login' ≠ login := by
          intro heq
          subst heq
          exact hc (by simp [h])
        simp only [Bool.not_eq_true] at hc
        simp only [hc, Bool.false_eq_true, if_false]
        by_cases hb : isLikelyBot login' = true
        · simp only [hb, if_true, prependStep]
          rw [dedupPassCount_cons]
          simpa [dedupPassed, hnl] using ih h
        · simp only [Bool.not_eq_true] at hb
          simp only [hb, Bool.false_eq_true, if_false]
          cases hp : processUser http login' (e.repo.getD "") with
          | ok u =>
            simp only [hp, prependBoth]
            rw [dedupPassCount_cons]
            simpa [dedupPassed, hnl] using ih (List.mem_cons_of_mem _ h)
          | error err =>
            simp only [hp, prependStep]
            rw [dedupPassCount_cons]
            simpa [dedupPassed, hnl] using ih (List.mem_cons_of_mem _ h)

theorem dedupPassCount_fresh (http : HTTP) (events : List Event)
    {seen : List String} {login : String} (hne : login ≠ "")
    (hbot : isLikelyBot login = false) (hseen : login ∉ seen)
    (hocc : login ∈ events.filterMap (·.actor)) :
    dedupPassCount (recentEventsLoop http events seen).1 login = 1 := by
  induction events generalizing seen with
  | nil => simp at hocc
  | cons e rest ih =>
    cases ha : e.actor with
    | none =>
      have hocc' : login ∈ rest.filterMap (·.actor) := by
        simpa [List.filterMap_cons, ha] using hocc
      simp only [recentEventsLoop, ha, prependStep]
      rw [dedupPassCount_cons]
      simpa [dedupPassed] using ih hseen hocc'
    | some login' =>
      simp only [recentEventsLoop, ha]
      by_cases heq : login' = login
      · subst heq
        have hc : ((login' == "") || seen.contains login') = false := by
          simp [hne, hseen]
        simp only [hc, Bool.false_eq_true, if_false]
        simp only [hbot, Bool.false_eq_true, if_false]
        cases hp : processUser http login' (e.repo.getD "") with
        | ok u =>
          simp only [hp, prependBoth]
          rw [dedupPassCount_cons]
          have h0 : dedupPassCount
              (recentEventsLoop http rest (login' :: seen)).1 login' = 0 :=
            dedupPassCount_seen http rest (List.mem_cons_self _ _)
          simp [dedupPassed, h0]
        | error err =>
          simp only [hp, prependStep]
          rw [dedupPassCount_cons]
          have h0 : dedupPassCount
              (recentEventsLoop http rest (login' :: seen)).1 login' = 0 :=
            dedupPassCount_seen http rest (List.mem_cons_self _ _)
          simp [dedupPassed, h0]
      · have hocc' : login ∈ rest.filterMap (·.actor) := by
          rcases List.mem_filterMap.1 hocc with ⟨a, hm, hact⟩
          rcases List.mem_cons.1 hm with h1 | h2
          · subst h1
            rw [ha] at hact
            exact absurd (Option.some.inj hact) heq
          · exact List.mem_filterMap.2 ⟨a, h2, hact⟩
        by_cases hc : ((login' == "") || seen.contains login') = true
        · simp only [hc, if_true, prependStep]
          rw [dedupPassCount_cons]
          simpa [dedupPassed, heq] using ih hseen hocc'
        · simp only [Bool.not_eq_true] at hc
          simp only [hc, Bool.false_eq_true, if_false]
          by_cases hb : isLikelyBot login' = true
          · simp only [hb, if_true, prependStep]
            rw [dedupPassCount_cons]
            simpa [dedupPassed, heq] using ih hseen hocc'
          · simp only [Bool.not_eq_true] at hb
            simp only [hb, Bool.false_eq_true, if_false]
            have hs' : login ∉ login' :: seen := by
              simp only [List.mem_cons]
              push_neg
              exact ⟨Ne.symm heq, hseen⟩
            cases hp : processUser http login' (e.repo.getD "") with
            | ok u =>
              simp only [hp, prependBoth]
              rw [dedupPassCount_cons]
              simpa [dedupPassed, heq] using ih hs' hocc'
            | error err =>
              simp only [hp, prependStep]
              rw [dedupPassCount_cons]
              simpa [dedupPassed, heq] using ih hs' hocc'

theorem dedupPassCount_empty (http : HTTP) (events : List Event)
    (seen : List String) :
    dedupPassCount (recentEventsLoop http events seen).1 "" = 0 := by
  induction events generalizing seen with
  | nil => rfl
  | cons e rest ih =>
    cases ha : e.actor with
    | none =>
      simp only [recentEventsLoop, ha, prependStep]
      rw [dedupPassCount_cons]
      simpa [dedupPassed] using ih seen
    | some login' =>
      simp only [recentEventsLoop, ha]
      by_cases he : login' = ""
      · subst he
        have hc : (("" == "") || seen.contains "") = true := by simp
        simp only [hc, if_true, prependStep]
        rw [dedupPassCount_cons]
        simpa [dedupPassed] using ih seen
      · by_cases hc : ((login' == "") || seen.contains login') = true
        · simp only [hc, if_true, prependStep]
          rw [dedupPassCount_cons]
          simpa [dedupPassed] using ih seen
        · simp only [Bool.not_eq_true] at hc
          simp only [hc, Bool.false_eq_true, if_false]
          by_cases hb : isLikelyBot login' = true
          · simp only [hb, if_true, prependStep]
            rw [dedupPassCount_cons]
            simpa [dedupPassed, he] using ih seen
          · simp only [Bool.not_eq_true] at hb
            simp only [hb, Bool.false_eq_true, if_false]
            cases hp : processUser http login' (e.repo.getD "") with
            | ok u =>
              simp only [hp, prependBoth]
              rw [dedupPassCount_cons]
              simpa [dedupPassed, he] using ih (login' :: seen)
            | error err =>
              simp only [hp, prependStep]
              rw [dedupPassCount_cons]
              simpa [dedupPassed, he] using ih (login' :: seen)

theorem recentEventsLoop_output (http : HTTP) (events : List Event)
    (seen : List String) :
    (∀ u ∈ (recentEventsLoop http events seen).2,
        isLikelyBot u.Username = false ∧ u.Username ≠ "") ∧
      ∀ s ∈ (recentEventsLoop http events seen).1, ∀ l r,
        s = .processed l r → isLikelyBot l = false ∧ l ≠ "" := by
  induction events generalizing seen with
  | nil => exact ⟨by simp [recentEventsLoop], by simp [recentEventsLoop]⟩
  | cons e rest ih =>
    cases ha : e.actor with
    | none =>
      simp only [recentEventsLoop, ha, prependStep]
      refine ⟨(ih seen).1, ?_⟩
      intro s hs l r hsl
      rcases List.mem_cons.1 hs with h1 | h2
      · subst h1
        simp at hsl
      · exact (ih seen).2 s h2 l r hsl
    | some login' =>
      simp only [recentEventsLoop, ha]
      by_cases hc : ((login' == "") || seen.contains login') = true
      · simp only [hc, if_true, prependStep]
        refine ⟨(ih seen).1, ?_⟩
        intro s hs l r hsl
        rcases List.mem_cons.1 hs with h1 | h2
        · subst h1
          simp at hsl
        · exact (ih seen).2 s h2 l r hsl
      · have hne' : login' ≠ "" := by
          intro hl
          subst hl
          simp at hc
        simp only [Bool.not_eq_true] at hc
        simp only [hc, Bool.false_eq_true, if_false]
        by_cases hb : isLikelyBot login' = true
        · simp only [hb, if_true, prependStep]
          refine ⟨(ih seen).1, ?_⟩
          intro s hs l r hsl
          rcases List.mem_cons.1 hs with h1 | h2
          · subst h1
            simp at hsl
          · exact (ih seen).2 s h2 l r hsl
        · simp only [Bool.not_eq_true] at hb
          simp only [hb, Bool.false_eq_true, if_false]
          cases hp : processUser http login' (e.repo.getD "") with
          | ok u =>
            simp only [hp, prependBoth]
            constructor
            · intro u' hu'
              rcases List.mem_cons.1 hu' with h1 | h2
              · subst h1
                have := processUser_username hp
                rw [this.1]
                exact ⟨hb, hne'⟩
              · exact (ih (login' :: seen)).1 u' h2
            · intro s hs l r hsl
              rcases List.mem_cons.1 hs with h1 | h2
              · subst h1
                have hl : l = login' := (EventStep.processed.inj hsl.symm).1
                subst hl
                exact ⟨hb, hne'⟩
              · exact (ih (login' :: seen)).2 s h2 l r hsl
          | error err =>
            simp only [hp, prependStep]
            refine ⟨(ih (login' :: seen)).1, ?_⟩
            intro s hs l r hsl
            rcases List.mem_cons.1 hs with h1 | h2
            · subst h1
              have hl : l = login' := (EventStep.processed.inj hsl.symm).1
              subst hl
              exact ⟨hb, hne'⟩
            · exact (ih (login' :: seen)).2 s h2 l r hsl

/-! ## Lemmas about OrgMembers -/

theorem processMembers_eq (http : HTTP) (org : String) (ms : List Member) :
    processMembers http org ms =
      (ms.filter (fun m => m.login != "")).map
        (fun m => (⟨fetchedKeys http m.login, org, m.login⟩ : UserInfo)) := by
  induction ms with
  | nil => rfl
  | cons m rest ih =>
    by_cases h : m.login = ""
    · simp [processMembers, h, List.filter_cons, ih]
    · simp [processMembers, h, List.filter_cons, processUser_ne http org h, ih]

theorem OrgMembers_pages_ok (http : HTTP) (org : String)
    (pages : List (List Member)) :
    OrgMembers http org (pages.map .ok) =
      .ok ((pages.flatten.filter (fun m => m.login != "")).map
        (fun m => (⟨fetchedKeys http m.login, org, m.login⟩ : UserInfo))) := by
  induction pages with
  | nil => rfl
  | cons page rest ih =>
    simp only [List.map_cons, OrgMembers, ih]
    rw [processMembers_eq]
    simp [List.filter_append]

theorem OrgMembers_usernames {http : HTTP} {org : String}
    {pages : List (Except SourceErr (List Member))} {us : List UserInfo}
    (hm : OrgMembers http org pages = .ok us) : ∀ u ∈ us, u.Username ≠ "" := by
  induction pages generalizing us with
  | nil =>
    simp only [OrgMembers] at hm
    cases hm
    simp
  | cons p rest ih =>
    cases p with
    | error e => simp [OrgMembers] at hm
    | ok ms =>
      simp only [OrgMembers] at hm
      cases hrec : OrgMembers http org rest with
      | error e =>
        rw [hrec] at hm
        simp at hm
      | ok more =>
        rw [hrec] at hm
        simp only at hm
        cases hm
        intro u hu
        rcases List.mem_append.1 hu with h1 | h2
        · rw [processMembers_eq] at h1
          obtain ⟨m, hmm, rfl⟩ := List.mem_map.1 h1
          have := List.of_mem_filter hmm
          simpa using this
        · exact ih hrec u h2

/-! ## Claims about the collection pipeline -/

/-- C6 counterexample: the actors `["abot", "abot"]` name a unique,
non-empty username, yet it passes the dedup check (`login == "" ||
seen[login]`) twice in one pass: the bot-suffix skip happens after the
check but before `seen[login] = true`, so a bot login is never recorded as
seen. -/
theorem dedup_bot_passes_twice_counterexample :
    dedupPassCount (RecentEvents (fun _ => .transportError)
        [⟨some "abot", none⟩, ⟨some "abot", none⟩]).1 "abot" = 2 ∧
      ("abot" : String) ≠ "" := by
  decide

/-- C6 (amended): within one pass, each unique non-empty username that does
NOT match the bot-suffix pattern passes the deduplication check exactly
once, and the empty username never passes it (bot-suffixed usernames pass
the check at every occurrence, because they are skipped before being
recorded as seen); the activity poll with actors
`["alice", "alice", "bob"]` lets exactly alice and bob proceed. -/
theorem recentEvents_dedup_amended (http : HTTP) (events : List Event)
    (login : String) (hne : login ≠ "") (hbot : isLikelyBot login = false)
    (hocc : login ∈ events.filterMap (·.actor)) :
    dedupPassCount (RecentEvents http events).1 login = 1 ∧
      dedupPassCount (RecentEvents http events).1 "" = 0 ∧
      (RecentEvents http [⟨some "alice", none⟩, ⟨some "alice", none⟩,
          ⟨some "bob", none⟩]).2.map (·.Username) = ["alice", "bob"] := by
  refine ⟨dedupPassCount_fresh http events hne hbot (by simp) hocc,
    dedupPassCount_empty http events [], ?_⟩
  have hpa : processUser http "alice" "" =
      .ok ⟨fetchedKeys http "alice", "", "alice"⟩ :=
    processUser_ne http "" (by decide)
  have hpb : processUser http "bob" "" =
      .ok ⟨fetchedKeys http "bob", "", "bob"⟩ :=
    processUser_ne http "" (by decide)
  have h1 : (("alice" == "") || ([] : List String).contains "alice") = false := by
    decide
  have h2 : (("alice" == "") || (["alice"] : List String).contains "alice") =
      true := by decide
  have h3 : (("bob" == "") || (["alice"] : List String).contains "bob") =
      false := by decide
  have h4 : isLikelyBot "alice" = false := by decide
  have h5 : isLikelyBot "bob" = false := by decide
  simp [RecentEvents, recentEventsLoop, h1, h2, h3, h4, h5, hpa, hpb,
    prependStep, prependBoth]

/-- Witness for the amended C6 at a concrete input. -/
theorem recentEvents_dedup_amended_witness :
    dedupPassCount (RecentEvents (fun _ => .transportError)
        [⟨some "alice", none⟩]).1 "alice" = 1 ∧
      dedupPassCount (RecentEvents (fun _ => .transportError)
        [⟨some "alice", none⟩]).1 "" = 0 ∧
      (RecentEvents (fun _ => .transportError)
        [⟨some "alice", none⟩, ⟨some "alice", none⟩,
         ⟨some "bob", none⟩]).2.map (·.Username) = ["alice", "bob"] :=
  recentEvents_dedup_amended (fun _ => .transportError)
    [⟨some "alice", none⟩] "alice" (by decide) (by decide) (by decide)

/-- C8: the membership walk is a finite terminal pass — over any finite
paginated listing (the last page being the one whose response carries no
next-page token) the walk returns exactly the members of every page, in
order, each non-empty login processed into a UserInfo; with pages
`["alice","bob"]` then `["carol"]` exactly 3 identities are processed and
the pass ends. -/
theorem orgMembers_processes_all_pages (http : HTTP) (org : String)
    (pages : List (List Member)) :
    OrgMembers http org (pages.map .ok) =
      .ok ((pages.flatten.filter (fun m => m.login != "")).map
        (fun m => (⟨fetchedKeys http m.login, org, m.login⟩ : UserInfo))) ∧
      OrgMembers http org [.ok [⟨"alice"⟩, ⟨"bob"⟩], .ok [⟨"carol"⟩]] =
        .ok [⟨fetchedKeys http "alice", org, "alice"⟩,
             ⟨fetchedKeys http "bob", org, "bob"⟩,
             ⟨fetchedKeys http "carol", org, "carol"⟩] := by
  refine ⟨OrgMembers_pages_ok http org pages, ?_⟩
  have h := OrgMembers_pages_ok http org [[⟨"alice"⟩, ⟨"bob"⟩], [⟨"carol"⟩]]
  have h2 : OrgMembers http org [.ok [⟨"alice"⟩, ⟨"bob"⟩], .ok [⟨"carol"⟩]] =
      OrgMembers http org ([[⟨"alice"⟩, ⟨"bob"⟩], [⟨"carol"⟩]].map .ok) := rfl
  rw [h2, h]
  rfl

/-- C9 counterexample: the bot-suffixed login "foobot", arriving from the
membership source, is NOT excluded: `OrgMembers` applies no bot filter, so
a key fetch is issued and a UserInfo for "foobot" appears in the output. -/
theorem orgMembers_bot_not_filtered_counterexample :
    OrgMembers (fun _ => .transportError) "org" [.ok [⟨"foobot"⟩]] =
        .ok [⟨[], "org", "foobot"⟩] ∧
      isLikelyBot "foobot" = true := by
  decide

/-- C9 (amended): the bot-suffix exclusion applies only to the activity
source: for every poll, `RecentEvents` never outputs a UserInfo with a
bot-suffixed username, and never reaches the key-fetch step (a `processed`
trace entry) for a bot-suffixed login — both hold unconditionally, also for
polls whose output is empty (e.g. all-bot events).  The membership source
applies no bot filter. -/
theorem recentEvents_bot_excluded (http : HTTP) (events : List Event) :
    (∀ u ∈ (RecentEvents http events).2, isLikelyBot u.Username = false) ∧
      ∀ s ∈ (RecentEvents http events).1, ∀ l r, s = .processed l r →
        isLikelyBot l = false := by
  have h := recentEventsLoop_output http events []
  exact ⟨fun u hu => (h.1 u hu).1, fun s hs l r hsl => (h.2 s hs l r hsl).1⟩

/-- Witness for the amended C9 at a concrete input: a poll of one
bot-suffixed actor and one human actor — no fetch is traced for the bot and
no bot UserInfo is output. -/
theorem recentEvents_bot_excluded_witness :
    (∀ u ∈ (RecentEvents (fun _ => .transportError)
        [⟨some "abot", none⟩, ⟨some "alice", none⟩]).2,
      isLikelyBot u.Username = false) ∧
      ∀ s ∈ (RecentEvents (fun _ => .transportError)
          [⟨some "abot", none⟩, ⟨some "alice", none⟩]).1, ∀ l r,
        s = .processed l r → isLikelyBot l = false :=
  recentEvents_bot_excluded (fun _ => .transportError)
    [⟨some "abot", none⟩, ⟨some "alice", none⟩]

/-- C10: every UserInfo produced by either source carries a non-empty
username — empty member logins and events without an actor or with an empty
actor login are skipped before a UserInfo is built — and `processUser`
rejects the empty username with an error. -/
theorem sources_username_nonempty (http : HTTP) (org : String)
    (pages : List (Except SourceErr (List Member))) (events : List Event)
    (repo : String) (us : List UserInfo)
    (hm : OrgMembers http org pages = .ok us) :
    (∀ u ∈ us, u.Username ≠ "") ∧
      (∀ u ∈ (RecentEvents http events).2, u.Username ≠ "") ∧
      processUser http "" repo = .error .emptyUsername := by
  exact ⟨OrgMembers_usernames hm,
    fun u hu => ((recentEventsLoop_output http events []).1 u hu).2,
    by simp [processUser]⟩

/-- Witness for C10 at a concrete input. -/
theorem sources_username_nonempty_witness :
    (∀ u ∈ [(⟨[], "org", "alice"⟩ : UserInfo)], u.Username ≠ "") ∧
      (∀ u ∈ (RecentEvents (fun _ => .transportError)
          [⟨some "bob", none⟩]).2, u.Username ≠ "") ∧
      processUser (fun _ => .transportError) "" "r" =
        .error .emptyUsername :=
  sources_username_nonempty (fun _ => .transportError) "org"
    [.ok [⟨"alice"⟩]] [⟨some "bob", none⟩] "r"
    [⟨[], "org", "alice"⟩] (by decide)
